import Mathlib

/-!
Verification of the obspec-utils reader and wrapper subsystem.

Objects in a store are modelled as lists of bytes (`List Nat`); a store
holding one object is identified with that list.  Python slices
`data[a:b]` (with `0 ≤ a`, `0 ≤ b`) are modelled by `pySlice`.  Each
reader's mutable state is a structure mirroring the Python instance
attributes, and each method becomes a function from state to
result × state × issued store requests.
-/

/-- Python slice `xs[a : b]` for nonnegative bounds. -/
def pySlice (xs : List Nat) (a b : Nat) : List Nat :=
  (xs.drop a).take (b - a)

/-- Store requests a reader or wrapper can issue against the backend. -/
inductive Req where
  | head : Req
  | get : Req
  | getRange (start length : Nat) : Req
  | getRanges (starts lengths : List Int) : Req
deriving DecidableEq

/-- LRU helper shared by the readers and the caching wrapper: move the
entry with key `i` to the most-recently-used (last) position, as
`OrderedDict.move_to_end` does for a present key (a missing key is left
alone; the sources only call it on present keys). -/
def moveToEnd {β : Type} (c : List (Nat × β)) (i : Nat) : List (Nat × β) :=
  match c with
  | [] => []
  | p :: rest => if p.1 = i then rest ++ [p] else p :: moveToEnd rest i

/-! BufferedStoreReader (src/obspec_utils/readers/_buffered.py): a
file-like reader with a single read-ahead buffer. -/

structure BufferedStoreReader.State where
  position : Nat
  size? : Option Nat
  buffer : List Nat
  bufferStart : Nat
deriving DecidableEq

/-- Embedding of `BufferedStoreReader._get_size`: lazily fetch the file
size via a `head()` call and cache it. -/
def BufferedStoreReader.getSize (data : List Nat) (st : BufferedStoreReader.State) :
    Nat × BufferedStoreReader.State × List Req :=
  match st.size? with
  | some s => (s, st, [])
  | none => (data.length, { st with size? := some data.length }, [Req.head])

/-- Tail of `BufferedStoreReader.read` once the requested byte count is
known to be nonnegative (`size` below): buffer check, EOF check, fetch. -/
def BufferedStoreReader.readAt (data : List Nat) (bufferSize : Nat)
    (st : BufferedStoreReader.State) (size : Nat) (r : List Req) :
    List Nat × BufferedStoreReader.State × List Req :=
  let bufferEnd := st.bufferStart + st.buffer.length
  if st.bufferStart ≤ st.position ∧ st.position < bufferEnd ∧
      size ≤ st.buffer.length - (st.position - st.bufferStart) then
    let bufferOffset := st.position - st.bufferStart
    let out := (st.buffer.drop bufferOffset).take size
    (out, { st with position := st.position + out.length }, r)
  else
    let gs := getSize data st
    let fileSize := gs.1
    let st1 := gs.2.1
    let r1 := gs.2.2
    if fileSize ≤ st1.position then ([], st1, r ++ r1)
    else
      let remaining := fileSize - st1.position
      let fetchSize := min (max size bufferSize) remaining
      let fetched := pySlice data st1.position (st1.position + fetchSize)
      let out := fetched.take size
      (out,
        { st1 with
            buffer := fetched
            bufferStart := st1.position
            position := st1.position + out.length },
        r ++ r1 ++ [Req.getRange st1.position fetchSize])

/-- Embedding of `BufferedStoreReader.read`.  `size = -1` means read to
the end; every call site passes `-1` or a nonnegative count. -/
def BufferedStoreReader.read (data : List Nat) (bufferSize : Nat)
    (st : BufferedStoreReader.State) (size : Int) :
    List Nat × BufferedStoreReader.State × List Req :=
  if size = -1 then
    let gs := getSize data st
    let fileSize := gs.1
    let st1 := gs.2.1
    let r1 := gs.2.2
    if (fileSize : Int) - st1.position ≤ 0 then ([], st1, r1)
    else readAt data bufferSize st1 (fileSize - st1.position) r1
  else readAt data bufferSize st size.toNat []

/-- Embedding of `BufferedStoreReader.readall`: one plain `get` of the
whole object; the read-ahead buffer is not touched. -/
def BufferedStoreReader.readall (data : List Nat) (st : BufferedStoreReader.State) :
    List Nat × BufferedStoreReader.State × List Req :=
  (data, { st with size? := some data.length, position := data.length }, [Req.get])

/-- Embedding of `BufferedStoreReader.seek`; `none` models the
`ValueError` raised on an invalid `whence`. -/
def BufferedStoreReader.seek (data : List Nat) (st : BufferedStoreReader.State)
    (offset : Int) (whence : Nat) :
    Option (Nat × BufferedStoreReader.State × List Req) :=
  match whence with
  | 0 =>
    let p := if offset < 0 then 0 else offset.toNat
    some (p, { st with position := p }, [])
  | 1 =>
    let p0 : Int := (st.position : Int) + offset
    let p := if p0 < 0 then 0 else p0.toNat
    some (p, { st with position := p }, [])
  | 2 =>
    let gs := getSize data st
    let st1 := gs.2.1
    let p0 : Int := (gs.1 : Int) + offset
    let p := if p0 < 0 then 0 else p0.toNat
    some (p, { st1 with position := p }, gs.2.2)
  | _ => none

def BufferedStoreReader.tell (st : BufferedStoreReader.State) : Nat :=
  st.position

/-- Embedding of `BufferedStoreReader.close`: drop the read-ahead buffer. -/
def BufferedStoreReader.close (st : BufferedStoreReader.State) :
    BufferedStoreReader.State :=
  { st with buffer := [], bufferStart := 0 }

/-- A buffered-reader state is valid for an object when the cached size
(if any) is the object's size and the buffer is a true slice of the
object starting at `bufferStart`. -/
def BufferedStoreReader.Valid (data : List Nat) (st : BufferedStoreReader.State) : Prop :=
  (∀ s, st.size? = some s → s = data.length) ∧
  st.buffer = pySlice data st.bufferStart (st.bufferStart + st.buffer.length)

/-! EagerStoreReader (src/obspec_utils/readers/_eager.py): after
construction all operations are served from the resident `io.BytesIO`
buffer, whose semantics these functions embed. -/

structure EagerStoreReader.State where
  buffer : List Nat
  pos : Nat
deriving DecidableEq

/-- Embedding of `EagerStoreReader.read`, i.e. `io.BytesIO.read`: a
negative size reads to the end. -/
def EagerStoreReader.read (st : EagerStoreReader.State) (size : Int) :
    List Nat × EagerStoreReader.State :=
  let out := if size < 0 then st.buffer.drop st.pos
             else (st.buffer.drop st.pos).take size.toNat
  (out, { st with pos := st.pos + out.length })

/-- Embedding of `EagerStoreReader.readall`: read everything from offset
zero, then restore the position. -/
def EagerStoreReader.readall (st : EagerStoreReader.State) :
    List Nat × EagerStoreReader.State :=
  (st.buffer, st)

/-- Embedding of `EagerStoreReader.seek`, i.e. `io.BytesIO.seek`: a
negative offset with `whence = 0` raises `ValueError` (`none` here),
while a negative resolved position with `whence` 1 or 2 clamps to 0. -/
def EagerStoreReader.seek (st : EagerStoreReader.State)
    (offset : Int) (whence : Nat) : Option (Nat × EagerStoreReader.State) :=
  match whence with
  | 0 =>
    if offset < 0 then none
    else some (offset.toNat, { st with pos := offset.toNat })
  | 1 =>
    let p0 : Int := (st.pos : Int) + offset
    let p := if p0 < 0 then 0 else p0.toNat
    some (p, { st with pos := p })
  | 2 =>
    let p0 : Int := (st.buffer.length : Int) + offset
    let p := if p0 < 0 then 0 else p0.toNat
    some (p, { st with pos := p })
  | _ => none

def EagerStoreReader.tell (st : EagerStoreReader.State) : Nat :=
  st.pos

/-- Embedding of `EagerStoreReader.close`: replace the buffer with an
empty one. -/
def EagerStoreReader.close (st : EagerStoreReader.State) : EagerStoreReader.State :=
  { st with buffer := [] }

/-- An eager-reader state is valid for an object when the whole object
is resident in the buffer. -/
def EagerStoreReader.Valid (data : List Nat) (st : EagerStoreReader.State) : Prop :=
  st.buffer = data

/-! BlockStoreReader (src/obspec_utils/readers/_block.py): block-aligned
LRU-cached reader.  The LRU cache (`OrderedDict[int, bytes]`) is a list
of `(block_index, bytes)` pairs in recency order, oldest first. -/

structure BlockStoreReader.State where
  position : Nat
  size? : Option Nat
  cache : List (Nat × List Nat)
deriving DecidableEq

/-- Embedding of `BlockStoreReader._get_size`. -/
def BlockStoreReader.getSize (data : List Nat) (st : BlockStoreReader.State) :
    Nat × BlockStoreReader.State × List Req :=
  match st.size? with
  | some s => (s, st, [])
  | none => (data.length, { st with size? := some data.length }, [Req.head])

/-- Membership test `block_index in self._cache`. -/
def BlockStoreReader.cacheMem (c : List (Nat × List Nat)) (i : Nat) : Bool :=
  c.any (fun p => p.1 == i)

/-- Cache lookup `self._cache[block_index]` (the callers only look up
present keys; a missing key yields `[]` here). -/
def BlockStoreReader.cacheGet (c : List (Nat × List Nat)) (i : Nat) : List Nat :=
  match c.find? (fun p => p.1 == i) with
  | some p => p.2
  | none => []

/-- Eviction loop of `_get_blocks`: pop the oldest entry while the cache
is over capacity. -/
def BlockStoreReader.evictOldest (maxCachedBlocks : Nat) :
    List (Nat × List Nat) → List (Nat × List Nat)
  | [] => []
  | p :: rest =>
    if maxCachedBlocks < (p :: rest).length then evictOldest maxCachedBlocks rest
    else p :: rest

/-- Embedding of `BlockStoreReader._get_blocks`: fetch the uncached
blocks with one `get_ranges` call, insert them, mark every requested
block most-recently-used, build the result mapping, then evict.  The
store's `get_ranges` response is the requested slices of the object. -/
def BlockStoreReader.getBlocks (data : List Nat) (blockSize maxCachedBlocks : Nat)
    (st : BlockStoreReader.State) (blockIndices : List Nat) :
    (Nat → List Nat) × BlockStoreReader.State × List Req :=
  let needed := blockIndices.filter (fun i => ! cacheMem st.cache i)
  if needed.isEmpty then
    let cache1 := blockIndices.foldl moveToEnd st.cache
    (fun i => cacheGet cache1 i,
      { st with cache := evictOldest maxCachedBlocks cache1 }, [])
  else
    let gs := getSize data st
    let fileSize := gs.1
    let starts := needed.map (fun i => i * blockSize)
    let lengths := needed.map (fun i => min (i * blockSize + blockSize) fileSize - i * blockSize)
    let results := (starts.zip lengths).map (fun q => pySlice data q.1 (q.1 + q.2))
    let cache0 := gs.2.1.cache ++ needed.zip results
    let cache1 := blockIndices.foldl moveToEnd cache0
    (fun i => cacheGet cache1 i,
      { gs.2.1 with cache := evictOldest maxCachedBlocks cache1 },
      gs.2.2 ++ [Req.getRanges (starts.map Int.ofNat) (lengths.map Int.ofNat)])

/-- Tail of `BlockStoreReader.read` once the clamped byte count `n` is
known to be positive: determine the covering block indices, fetch them
through the cache, and assemble the result from per-block slices. -/
def BlockStoreReader.readCore (data : List Nat) (blockSize maxCachedBlocks : Nat)
    (st1 : BlockStoreReader.State) (n : Nat) (r : List Req) :
    List Nat × BlockStoreReader.State × List Req :=
  let startBlock := st1.position / blockSize
  let endPos := st1.position + n
  let endBlock := (endPos - 1) / blockSize
  let blockIndices := List.range' startBlock (endBlock + 1 - startBlock)
  let gb := getBlocks data blockSize maxCachedBlocks st1 blockIndices
  let out := (blockIndices.map (fun i =>
      let blockData := gb.1 i
      let blockStart := i * blockSize
      let localStart := st1.position - blockStart
      let localEnd := min blockData.length (endPos - blockStart)
      (blockData.drop localStart).take (localEnd - localStart))).flatten
  (out, { gb.2.1 with position := gb.2.1.position + out.length }, r ++ gb.2.2)

/-- Embedding of `BlockStoreReader.read`.  The two early `return b""`
paths of the source collapse into the single `size3 ≤ 0` test: when
`size = -1` the clamp is the identity, so the merged condition is
equivalent. -/
def BlockStoreReader.read (data : List Nat) (blockSize maxCachedBlocks : Nat)
    (st : BlockStoreReader.State) (size : Int) :
    List Nat × BlockStoreReader.State × List Req :=
  let gs := getSize data st
  let fileSize := gs.1
  let st1 := gs.2.1
  let size2 : Int := if size = -1 then (fileSize : Int) - st1.position else size
  let remaining : Int := (fileSize : Int) - st1.position
  let size3 : Int := if size2 > remaining then remaining else size2
  if size3 ≤ 0 then ([], st1, gs.2.2)
  else readCore data blockSize maxCachedBlocks st1 size3.toNat gs.2.2

/-- Embedding of `BlockStoreReader.readall`: one plain `get`; the block
cache is not touched. -/
def BlockStoreReader.readall (data : List Nat) (st : BlockStoreReader.State) :
    List Nat × BlockStoreReader.State × List Req :=
  (data, { st with size? := some data.length, position := data.length }, [Req.get])

/-- Embedding of `BlockStoreReader.seek`; `none` models the `ValueError`
raised on an invalid `whence`. -/
def BlockStoreReader.seek (data : List Nat) (st : BlockStoreReader.State)
    (offset : Int) (whence : Nat) :
    Option (Nat × BlockStoreReader.State × List Req) :=
  match whence with
  | 0 =>
    let p := if offset < 0 then 0 else offset.toNat
    some (p, { st with position := p }, [])
  | 1 =>
    let p0 : Int := (st.position : Int) + offset
    let p := if p0 < 0 then 0 else p0.toNat
    some (p, { st with position := p }, [])
  | 2 =>
    let gs := getSize data st
    let p0 : Int := (gs.1 : Int) + offset
    let p := if p0 < 0 then 0 else p0.toNat
    some (p, { gs.2.1 with position := p }, gs.2.2)
  | _ => none

def BlockStoreReader.tell (st : BlockStoreReader.State) : Nat :=
  st.position

/-- Embedding of `BlockStoreReader.close`: clear the block cache. -/
def BlockStoreReader.close (st : BlockStoreReader.State) : BlockStoreReader.State :=
  { st with cache := [] }

/-- Content of block `i` of the object: the slice the block reader's
cache must hold for that index. -/
def BlockStoreReader.blockContent (data : List Nat) (blockSize i : Nat) : List Nat :=
  pySlice data (i * blockSize) (min (i * blockSize + blockSize) data.length)

/-- Every cached entry holds its block's true content. -/
def BlockStoreReader.CacheOk (data : List Nat) (blockSize : Nat)
    (c : List (Nat × List Nat)) : Prop :=
  ∀ p ∈ c, p.2 = blockContent data blockSize p.1

/-- A block-reader state is valid for an object when the cached size (if
any) is the object's size and every cached block is genuine. -/
def BlockStoreReader.Valid (data : List Nat) (blockSize : Nat)
    (st : BlockStoreReader.State) : Prop :=
  (∀ s, st.size? = some s → s = data.length) ∧ CacheOk data blockSize st.cache

/-! SplittingReadableStore (src/obspec_utils/splitting.py): wraps a
store to split large `get()` calls into one parallel `get_ranges()`.
Python integer arithmetic on lengths is kept in `Int`, because the
capped branch can produce non-positive lengths. -/

/-- Embedding of `SplittingReadableStore._compute_ranges`; `none` means
a single plain request suffices. -/
def SplittingReadableStore.computeRanges
    (requestSize maxConcurrentRequests fileSize : Nat) :
    Option (List Nat × List Int) :=
  if fileSize = 0 then none
  else
    let numRequests0 := (fileSize + requestSize - 1) / requestSize
    if numRequests0 = 1 then none
    else
      let numRequests :=
        if numRequests0 > maxConcurrentRequests then maxConcurrentRequests
        else numRequests0
      let requestSize1 :=
        if numRequests0 > maxConcurrentRequests then
          (fileSize + maxConcurrentRequests - 1) / maxConcurrentRequests
        else requestSize
      let starts := (List.range numRequests).map (fun i => i * requestSize1)
      let lengths := (List.range numRequests).map
        (fun i => min (requestSize1 : Int) ((fileSize : Int) - (i * requestSize1 : Nat)))
      some (starts, lengths)

/-- Requests issued by `SplittingReadableStore.get`: a `head` for the
size, then either one `get_ranges` over the computed parts or a
delegated plain `get`. -/
def SplittingReadableStore.getRequests
    (requestSize maxConcurrentRequests fileSize : Nat) : List Req :=
  match computeRanges requestSize maxConcurrentRequests fileSize with
  | some sl => [Req.head, Req.getRanges (sl.1.map Int.ofNat) sl.2]
  | none => [Req.head, Req.get]

/-- Boolean check that `(start, length)` parts are contiguous from
offset `a`, have positive lengths, and end exactly at `fileSize`. -/
def coversFrom (fileSize : Nat) (a : Nat) : List (Nat × Int) → Bool
  | [] => a == fileSize
  | (s, l) :: rest => s == a && decide (0 < l) && coversFrom fileSize (a + l.toNat) rest

/-! CachingReadableStore (src/obspec_utils/cache.py): whole-object LRU
cache bounded by total byte size.  Only the eviction bookkeeping matters
for the size invariant, so the state is the `_path_sizes` ordered dict:
a list of `(path, size)` pairs, oldest first; paths are modelled as
naturals and the backend as a size function. -/

/-- Sum of the cached object sizes (`self._current_size`). -/
def CachingReadableStore.currentSize (c : List (Nat × Nat)) : Nat :=
  (c.map Prod.snd).sum

/-- Eviction loop of `CachingReadableStore._add_to_cache`: pop the
least-recently-used entry while inserting `size` more bytes would
exceed `maxSize` and the cache is nonempty. -/
def CachingReadableStore.evictWhile (maxSize size : Nat) :
    List (Nat × Nat) → List (Nat × Nat)
  | [] => []
  | p :: rest =>
    if maxSize < currentSize (p :: rest) + size then evictWhile maxSize size rest
    else p :: rest

/-- Embedding of `CachingReadableStore._add_to_cache`. -/
def CachingReadableStore.addToCache (maxSize : Nat) (c : List (Nat × Nat))
    (path size : Nat) : List (Nat × Nat) :=
  evictWhile maxSize size c ++ [(path, size)]

/-- Embedding of `CachingReadableStore._ensure_cached`: a hit moves the
path to most-recently-used; a miss fetches the whole object (of size
`sizes path`) and inserts it.  All of `get`, `get_range` and
`get_ranges` drive the cache exclusively through this function. -/
def CachingReadableStore.ensureCached (maxSize : Nat) (sizes : Nat → Nat)
    (c : List (Nat × Nat)) (path : Nat) : List (Nat × Nat) :=
  if c.any (fun p => p.1 == path) then moveToEnd c path
  else addToCache maxSize c path (sizes path)

/-- Cache contents after a sequence of operations (each of
`get`/`get_range`/`get_ranges` on some path), starting empty. -/
def CachingReadableStore.runOps (maxSize : Nat) (sizes : Nat → Nat)
    (ops : List Nat) : List (Nat × Nat) :=
  ops.foldl (ensureCached maxSize sizes) []

/-! TracingReadableStore (src/obspec_utils/wrappers/_tracing.py).
Wall-clock timestamps and durations are not representable in a pure
embedding, so records carry the path, offsets, method and range style.
A delegate outcome of `none` models the underlying store raising. -/

inductive Method where
  | get : Method
  | getRange : Method
  | getRanges : Method
  | head : Method
deriving DecidableEq

inductive RangeStyle where
  | endStyle : RangeStyle
  | lengthStyle : RangeStyle
deriving DecidableEq

structure RequestRecord where
  path : String
  start : Int
  length : Int
  stop : Int
  method : Method
  rangeStyle : Option RangeStyle
deriving DecidableEq

/-- Embedding of `RequestTrace.add`: append one record with
`end = start + length`. -/
def RequestTrace.add (t : List RequestRecord) (path : String)
    (start length : Int) (method : Method) (rangeStyle : Option RangeStyle) :
    List RequestRecord :=
  t ++ [⟨path, start, length, start + length, method, rangeStyle⟩]

/-- Embedding of `RequestTrace.total_bytes`. -/
def RequestTrace.totalBytes (t : List RequestRecord) : Int :=
  (t.map (fun r => r.length)).sum

/-- Embedding of `TracingReadableStore.get`: the delegate result is the
object size from the returned metadata (`none` if the delegate raised);
the `_record` context manager appends a record in both cases, with
`start = length = 0` when the delegate raised before `info` was set. -/
def TracingReadableStore.get (t : List RequestRecord) (path : String)
    (res : Option Nat) : Option Nat × List RequestRecord :=
  match res with
  | some size => (some size, RequestTrace.add t path 0 size Method.get none)
  | none => (none, RequestTrace.add t path 0 0 Method.get none)

/-- Embedding of `TracingReadableStore.get_range`: `info` is populated
before delegating, so the record keeps the true offsets even when the
delegate raises; passing neither `end` nor `length` raises `ValueError`
inside the recording scope, appending a record with length 0. -/
def TracingReadableStore.getRange (t : List RequestRecord) (path : String)
    (start : Int) (stop? length? : Option Int) (res : Option (List Nat)) :
    Option (List Nat) × List RequestRecord :=
  match length? with
  | some length =>
    (res, RequestTrace.add t path start length Method.getRange
      (some RangeStyle.lengthStyle))
  | none =>
    match stop? with
    | some stop =>
      (res, RequestTrace.add t path start (stop - start) Method.getRange
        (some RangeStyle.endStyle))
    | none =>
      (none, RequestTrace.add t path start 0 Method.getRange none)

/-- Per-range records of `TracingReadableStore._record_ranges`. -/
def TracingReadableStore.recordRanges (t : List RequestRecord) (path : String)
    (starts lengths : List Int) (rangeStyle : RangeStyle) :
    List RequestRecord :=
  (starts.zip lengths).foldl
    (fun acc q => RequestTrace.add acc path q.1 q.2 Method.getRanges
      (some rangeStyle)) t

/-- Embedding of `TracingReadableStore.get_ranges`: records are written
only after the delegate returns, so a raising delegate (`res = none`)
leaves the trace unchanged; passing neither `ends` nor `lengths` raises
before any recording. -/
def TracingReadableStore.getRanges (t : List RequestRecord) (path : String)
    (starts : List Int) (ends? lengths? : Option (List Int))
    (res : Option (List (List Nat))) :
    Option (List (List Nat)) × List RequestRecord :=
  match lengths? with
  | some lengths =>
    match res with
    | some r =>
      (some r, recordRanges t path starts lengths RangeStyle.lengthStyle)
    | none => (none, t)
  | none =>
    match ends? with
    | some ends =>
      match res with
      | some r =>
        (some r, recordRanges t path starts
          ((starts.zip ends).map (fun q => q.2 - q.1)) RangeStyle.endStyle)
      | none => (none, t)
    | none => (none, t)

/-- Embedding of `TracingReadableStore.head`: the record fields are set
to `start = 0, length = 0` on success, and keep those defaults when the
delegate raises, so the appended record is the same either way. -/
def TracingReadableStore.head (t : List RequestRecord) (path : String)
    (res : Option Nat) : Option Nat × List RequestRecord :=
  (res, RequestTrace.add t path 0 0 Method.head none)

/-! ObjectStoreRegistry (src/obspec_utils/registry.py): a per
`(scheme, authority)` trie of path segments.  The model covers the
subtree for one key; string helpers are implemented over character
lists so they evaluate definitionally. -/

/-- Split a character list on `'/'`, like Python's `str.split("/")`. -/
def splitOnSlash (cur : List Char) : List Char → List (List Char)
  | [] => [cur.reverse]
  | c :: rest =>
    if c = '/' then cur.reverse :: splitOnSlash [] rest
    else splitOnSlash (c :: cur) rest

/-- Embedding of `path_segments`: the non-empty `/`-separated segments
of a path. -/
def pathSegments (path : String) : List String :=
  ((splitOnSlash [] path.toList).map String.mk).filter (fun s => s ≠ "")

/-- Python `str.lstrip("/")`. -/
def lstripSlashes (s : String) : String :=
  String.mk (s.toList.dropWhile (fun c => c = '/'))

/-- Python `str.removeprefix`. -/
def removePrefixStr (s pre : String) : String :=
  if pre.toList.isPrefixOf s.toList then String.mk (s.toList.drop pre.toList.length)
  else s

/-- Embedding of `PathEntry`: an optional store and children keyed by
path segment (a `dict`, i.e. an insertion-ordered association list). -/
inductive PathEntry (T : Type) where
  | node : Option T → List (String × PathEntry T) → PathEntry T

def PathEntry.store {T : Type} : PathEntry T → Option T
  | node st _ => st

/-- Recursive form of the `PathEntry.lookup` walk: follow the query
segments while children exist, returning the store of the deepest
store-bearing node passed, with its segment depth. -/
def lookupIn {T : Type} : List String → PathEntry T → Option (T × Nat)
  | [], PathEntry.node st _ => st.map (fun s => (s, 0))
  | seg :: rest, PathEntry.node st ch =>
    match ch.find? (fun c => c.1 == seg) with
    | none => st.map (fun s => (s, 0))
    | some c =>
      match lookupIn rest c.2 with
      | some r => some (r.1, r.2 + 1)
      | none => st.map (fun s => (s, 0))

/-- Embedding of `PathEntry.lookup`. -/
def PathEntry.lookup {T : Type} (t : PathEntry T) (toResolve : String) :
    Option (T × Nat) :=
  lookupIn (pathSegments toResolve) t

/-- Update-or-append for the children `dict`. -/
def replaceOrAppend {T : Type} (ch : List (String × PathEntry T)) (seg : String)
    (c : PathEntry T) : List (String × PathEntry T) :=
  match ch with
  | [] => [(seg, c)]
  | e :: rest =>
    if e.1 == seg then (seg, c) :: rest else e :: replaceOrAppend rest seg c

/-- Walk/create the nodes for the registered path and attach the store
to the terminal node, as `ObjectStoreRegistry.register` does. -/
def registerIn {T : Type} : List String → PathEntry T → T → PathEntry T
  | [], PathEntry.node _ ch, s => PathEntry.node (some s) ch
  | seg :: rest, PathEntry.node st ch, s =>
    let child := match ch.find? (fun c => c.1 == seg) with
      | some c => c.2
      | none => PathEntry.node none []
    PathEntry.node st (replaceOrAppend ch seg (registerIn rest child s))

/-- Embedding of `ObjectStoreRegistry.register` restricted to one
`(scheme, authority)` subtree; `urlPath` is the parsed URL's path. -/
def ObjectStoreRegistry.register {T : Type} (t : PathEntry T) (urlPath : String)
    (s : T) : PathEntry T :=
  registerIn (pathSegments urlPath) t s

/-- Store attached at exactly the node reached by the given segments
(`none` when the node is missing or bare). -/
def storeAt {T : Type} : List String → PathEntry T → Option T
  | [], PathEntry.node st _ => st
  | seg :: rest, PathEntry.node _ ch =>
    match ch.find? (fun c => c.1 == seg) with
    | some c => storeAt rest c.2
    | none => none

/-- Modelled from the claim's words: the deepest `d ≤ depth` such that a
store is registered at the prefix `q.take d` of the query segments,
together with that store. -/
def deepestMatch {T : Type} (t : PathEntry T) (q : List String) :
    Nat → Option (T × Nat)
  | 0 => (storeAt [] t).map (fun s => (s, 0))
  | d + 1 =>
    match storeAt (q.take (d + 1)) t with
    | some s => some (s, d + 1)
    | none => deepestMatch t q d

/-- Store attributes that `ObjectStoreRegistry.resolve` inspects: the
optional `prefix` attribute (stringified) and, for stores exposing a
`url` attribute, the parsed URL's path. -/
structure StoreInfo where
  pre? : Option String
  urlPath? : Option String

/-- Embedding of the trailing-path computation in
`ObjectStoreRegistry.resolve`: the full URL path is stripped of leading
slashes and of the store's own advertised prefix (or its `url`
attribute's path) — the registered prefix depth is not used. -/
def ObjectStoreRegistry.resolvePath (store : StoreInfo) (path : String) : String :=
  match store.pre? with
  | some p =>
    if p ≠ "" then
      lstripSlashes (removePrefixStr (lstripSlashes path) (lstripSlashes p))
    else
      match store.urlPath? with
      | some u =>
        lstripSlashes (removePrefixStr (lstripSlashes path) (lstripSlashes u))
      | none => lstripSlashes path
  | none =>
    match store.urlPath? with
    | some u =>
      lstripSlashes (removePrefixStr (lstripSlashes path) (lstripSlashes u))
    | none => lstripSlashes path

/-- Embedding of `ObjectStoreRegistry.resolve` on one
`(scheme, authority)` subtree; `none` models the `ValueError` when no
store matches. -/
def ObjectStoreRegistry.resolve (entry : PathEntry StoreInfo) (path : String) :
    Option (StoreInfo × String) :=
  match entry.lookup path with
  | some r => some (r.1, resolvePath r.1 path)
  | none => none

theorem pySlice_length (xs : List Nat) (a b : Nat) :
    (pySlice xs a b).length = min (b - a) (xs.length - a) := by
  simp [pySlice]

theorem pySlice_append (xs : List Nat) {a b c : Nat} (hab : a ≤ b) (hbc : b ≤ c) :
    pySlice xs a b ++ pySlice xs b c = pySlice xs a c := by
  unfold pySlice
  have hdrop : xs.drop b = (xs.drop a).drop (b - a) := by
    rw [List.drop_drop]
    congr 1
    omega
  rw [hdrop, ← List.take_add]
  congr 1
  omega

theorem pySlice_empty_of_le (xs : List Nat) {a b : Nat} (h : b ≤ a) :
    pySlice xs a b = [] := by
  unfold pySlice
  have : b - a = 0 := by omega
  simp [this]

theorem pySlice_empty_of_len_le (xs : List Nat) {a b : Nat} (h : xs.length ≤ a) :
    pySlice xs a b = [] := by
  unfold pySlice
  rw [List.drop_eq_nil_of_le h]
  simp

theorem BufferedStoreReader.buffered_getSize_spec (data : List Nat)
    (st : BufferedStoreReader.State) (hv : Valid data st) :
    (getSize data st).1 = data.length ∧
    (getSize data st).2.1 = { st with size? := some data.length } := by
  obtain ⟨hsz, -⟩ := hv
  cases hstq : st.size? with
  | none => simp [getSize, hstq]
  | some s =>
    have hs := hsz s hstq
    refine ⟨by simp [getSize, hstq, hs], ?_⟩
    cases st with
    | mk p sz b bst =>
      simp only [getSize, hstq]
      simp only at hstq
      rw [hstq, hs]

theorem BufferedStoreReader.buffered_valid_set_size (data : List Nat)
    (st : BufferedStoreReader.State) (hv : Valid data st) :
    Valid data { st with size? := some data.length } := by
  obtain ⟨-, hbuf⟩ := hv
  exact ⟨fun s hs => by simpa using hs.symm, hbuf⟩

/-- Validity bounds the buffer inside the object. -/
theorem BufferedStoreReader.buffer_le (data : List Nat)
    (st : BufferedStoreReader.State) (hv : Valid data st)
    (hne : 0 < st.buffer.length) :
    st.bufferStart + st.buffer.length ≤ data.length := by
  have hlen := congrArg List.length hv.2
  rw [pySlice_length] at hlen
  omega

theorem BufferedStoreReader.readAt_spec (data : List Nat) (bufferSize : Nat)
    (st : BufferedStoreReader.State) (hv : Valid data st) (size : Nat) (r : List Req) :
    (readAt data bufferSize st size r).1 =
      pySlice data st.position (min (st.position + size) data.length) ∧
    (readAt data bufferSize st size r).2.1.position =
      st.position + (readAt data bufferSize st size r).1.length ∧
    Valid data (readAt data bufferSize st size r).2.1 := by
  have hbuf := hv.2
  obtain ⟨hfs, hst⟩ := buffered_getSize_spec data st hv
  unfold readAt
  dsimp only
  split
  next hhit =>
    obtain ⟨h1, h2, h3⟩ := hhit
    have hub : st.bufferStart + st.buffer.length ≤ data.length :=
      buffer_le data st hv (by omega)
    have hout : (st.buffer.drop (st.position - st.bufferStart)).take size =
        pySlice data st.position (min (st.position + size) data.length) := by
      conv_lhs => rw [hbuf]
      unfold pySlice
      rw [List.drop_take, List.drop_drop, List.take_take]
      congr 1
      · omega
      · congr 1
        omega
    exact ⟨hout, by simp, hv.1, hbuf⟩
  next hhit =>
    split
    next heof =>
      rw [hfs, hst] at heof
      simp only at heof
      refine ⟨(pySlice_empty_of_len_le data heof).symm, ?_, ?_⟩
      · rw [hst]
        simp
      · rw [hst]
        exact buffered_valid_set_size data st hv
    next heof =>
      rw [hfs, hst] at heof
      simp only at heof
      push_neg at heof
      rw [hfs, hst]
      simp only
      have hout : (pySlice data st.position
            (st.position + min (max size bufferSize) (data.length - st.position))).take size =
          pySlice data st.position (min (st.position + size) data.length) := by
        unfold pySlice
        rw [List.take_take]
        congr 1
        omega
      refine ⟨hout, by simp, ?_, ?_⟩
      · intro s hs
        simpa using hs.symm
      · simp only
        have hlen : (pySlice data st.position
            (st.position + min (max size bufferSize) (data.length - st.position))).length =
            min (max size bufferSize) (data.length - st.position) := by
          rw [pySlice_length]
          omega
        rw [hlen]

theorem BufferedStoreReader.buffered_read_spec (data : List Nat) (bufferSize : Nat)
    (st : BufferedStoreReader.State) (hv : Valid data st) (n : Nat) :
    (read data bufferSize st (n : Int)).1 =
      pySlice data st.position (min (st.position + n) data.length) ∧
    (read data bufferSize st (n : Int)).2.1.position =
      st.position + (read data bufferSize st (n : Int)).1.length ∧
    Valid data (read data bufferSize st (n : Int)).2.1 := by
  unfold read
  rw [if_neg (by omega : ¬ (n : Int) = -1)]
  have ht : (n : Int).toNat = n := Int.toNat_natCast n
  rw [ht]
  exact readAt_spec data bufferSize st hv n []

theorem BufferedStoreReader.buffered_getSize_no_get (data : List Nat)
    (st : BufferedStoreReader.State) : Req.get ∉ (getSize data st).2.2 := by
  unfold getSize
  cases st.size? <;> simp

theorem BufferedStoreReader.readAt_no_get (data : List Nat) (bufferSize : Nat)
    (st : BufferedStoreReader.State) (size : Nat) (r : List Req)
    (hr : Req.get ∉ r) :
    Req.get ∉ (readAt data bufferSize st size r).2.2 := by
  have hg := buffered_getSize_no_get data st
  unfold readAt
  dsimp only
  split
  · exact hr
  · split
    · intro hmem
      rcases List.mem_append.mp hmem with h | h
      · exact hr h
      · exact hg h
    · intro hmem
      rcases List.mem_append.mp hmem with h | h
      · rcases List.mem_append.mp h with h2 | h2
        · exact hr h2
        · exact hg h2
      · simp at h

theorem BufferedStoreReader.buffered_read_no_get (data : List Nat) (bufferSize : Nat)
    (st : BufferedStoreReader.State) (size : Int) :
    Req.get ∉ (read data bufferSize st size).2.2 := by
  have hg := buffered_getSize_no_get data st
  unfold read
  dsimp only
  split
  · split
    · exact hg
    · exact readAt_no_get data bufferSize _ _ _ hg
  · exact readAt_no_get data bufferSize _ _ _ (by simp)

theorem EagerStoreReader.eager_read_spec (data : List Nat)
    (st : EagerStoreReader.State) (hv : Valid data st) (n : Nat) :
    (read st (n : Int)).1 = pySlice data st.pos (min (st.pos + n) data.length) ∧
    (read st (n : Int)).2.pos = st.pos + (read st (n : Int)).1.length := by
  unfold read
  rw [if_neg (by omega : ¬ (n : Int) < 0), Int.toNat_natCast]
  unfold Valid at hv
  subst hv
  dsimp only
  refine ⟨?_, rfl⟩
  unfold pySlice
  rw [List.take_eq_take]
  simp
  omega

theorem BlockStoreReader.getSize_spec (data : List Nat)
    (st : BlockStoreReader.State) (hv : Valid data blockSize st) :
    (getSize data st).1 = data.length ∧
    (getSize data st).2.1 = { st with size? := some data.length } := by
  obtain ⟨hsz, -⟩ := hv
  cases hstq : st.size? with
  | none => simp [getSize, hstq]
  | some s =>
    have hs := hsz s hstq
    refine ⟨by simp [getSize, hstq, hs], ?_⟩
    cases st with
    | mk p sz c =>
      simp only [getSize, hstq]
      simp only at hstq
      rw [hstq, hs]

theorem BlockStoreReader.mem_moveToEnd {β : Type} (c : List (Nat × β)) (i : Nat)
    (q : Nat × β) (hq : q ∈ moveToEnd c i) : q ∈ c := by
  induction c with
  | nil => simpa [moveToEnd] using hq
  | cons p rest ih =>
    unfold moveToEnd at hq
    split at hq
    · rcases List.mem_append.mp hq with h | h
      · exact List.mem_cons_of_mem p h
      · simp at h
        simp [h]
    · rcases List.mem_cons.mp hq with h | h
      · simp [h]
      · exact List.mem_cons_of_mem p (ih h)

theorem BlockStoreReader.mem_foldl_moveToEnd {β : Type} (l : List Nat)
    (c : List (Nat × β)) (q : Nat × β) (hq : q ∈ l.foldl moveToEnd c) : q ∈ c := by
  induction l generalizing c with
  | nil => simpa using hq
  | cons j rest ih =>
    simp only [List.foldl_cons] at hq
    exact mem_moveToEnd c j q (ih (moveToEnd c j) hq)

theorem BlockStoreReader.mem_evictOldest (maxCachedBlocks : Nat)
    (c : List (Nat × List Nat)) (q : Nat × List Nat)
    (hq : q ∈ evictOldest maxCachedBlocks c) : q ∈ c := by
  induction c with
  | nil => simpa [evictOldest] using hq
  | cons p rest ih =>
    unfold evictOldest at hq
    split at hq
    · exact List.mem_cons_of_mem p (ih hq)
    · exact hq

theorem BlockStoreReader.cacheMem_moveToEnd {β : Type} (c : List (Nat × β))
    (j i : Nat) :
    (moveToEnd c j).any (fun p => p.1 == i) = c.any (fun p => p.1 == i) := by
  induction c with
  | nil => simp [moveToEnd]
  | cons p rest ih =>
    unfold moveToEnd
    split
    · simp [List.any_append, Bool.or_comm]
    · simp [ih]

theorem BlockStoreReader.cacheMem_foldl_moveToEnd (l : List Nat)
    (c : List (Nat × List Nat)) (i : Nat) :
    cacheMem (l.foldl moveToEnd c) i = cacheMem c i := by
  induction l generalizing c with
  | nil => rfl
  | cons j rest ih =>
    simp only [List.foldl_cons]
    rw [ih, cacheMem, cacheMem_moveToEnd]
    rfl

theorem BlockStoreReader.cacheGet_of_ok (data : List Nat) (blockSize : Nat)
    (c : List (Nat × List Nat)) (hok : CacheOk data blockSize c) (i : Nat)
    (hmem : cacheMem c i = true) :
    cacheGet c i = blockContent data blockSize i := by
  unfold cacheGet
  cases hf : c.find? (fun p => p.1 == i) with
  | none =>
    rw [List.find?_eq_none] at hf
    rw [cacheMem, List.any_eq_true] at hmem
    obtain ⟨x, hx, hxi⟩ := hmem
    exact absurd hxi (hf x hx)
  | some p =>
    have hp : p ∈ c := List.mem_of_find?_eq_some hf
    have hpi : p.1 = i := by
      have := List.find?_some hf
      simpa using this
    dsimp only
    rw [hok p hp, hpi]

theorem pySlice_shift (xs : List Nat) (a b : Nat) :
    pySlice xs a (a + (b - a)) = pySlice xs a b := by
  unfold pySlice
  congr 1
  omega

theorem BlockStoreReader.cacheOk_subset (data : List Nat) (blockSize : Nat)
    (c c' : List (Nat × List Nat)) (hsub : ∀ q ∈ c', q ∈ c)
    (hok : CacheOk data blockSize c) : CacheOk data blockSize c' :=
  fun q hq => hok q (hsub q hq)

theorem BlockStoreReader.cacheMem_append (c l : List (Nat × List Nat)) (i : Nat) :
    cacheMem (c ++ l) i = (cacheMem c i || cacheMem l i) := by
  simp [cacheMem]

theorem zip_map_self {α β : Type} (l : List α) (h : α → β) :
    l.zip (l.map h) = l.map (fun a => (a, h a)) := by
  induction l with
  | nil => rfl
  | cons a rest ih => simp [ih]

theorem BlockStoreReader.getBlocks_spec (data : List Nat)
    (blockSize maxCachedBlocks : Nat) (st : BlockStoreReader.State)
    (hv : Valid data blockSize st) (blockIndices : List Nat) :
    (∀ i ∈ blockIndices,
      (getBlocks data blockSize maxCachedBlocks st blockIndices).1 i =
        blockContent data blockSize i) ∧
    (getBlocks data blockSize maxCachedBlocks st blockIndices).2.1.position =
      st.position ∧
    Valid data blockSize (getBlocks data blockSize maxCachedBlocks st blockIndices).2.1 := by
  obtain ⟨hfs, hst⟩ := getSize_spec data st hv
  unfold getBlocks
  dsimp only
  split
  next hempty =>
    have hnil : blockIndices.filter (fun i => ! cacheMem st.cache i) = [] :=
      List.isEmpty_iff.mp hempty
    have hmemAll : ∀ i ∈ blockIndices, cacheMem st.cache i = true := by
      intro i hi
      have := List.filter_eq_nil_iff.mp hnil i hi
      simpa using this
    have hok1 : CacheOk data blockSize (blockIndices.foldl moveToEnd st.cache) :=
      cacheOk_subset data blockSize _ _
        (fun q hq => mem_foldl_moveToEnd _ _ q hq) hv.2
    refine ⟨?_, rfl, hv.1, ?_⟩
    · intro i hi
      exact cacheGet_of_ok data blockSize _ hok1 i
        (by rw [cacheMem_foldl_moveToEnd]; exact hmemAll i hi)
    · exact cacheOk_subset data blockSize _ _
        (fun q hq => mem_foldl_moveToEnd _ _ q
          (mem_evictOldest _ _ q hq)) hv.2
  next hempty =>
    have hzip : (blockIndices.filter (fun i => ! cacheMem st.cache i)).zip
        (((((blockIndices.filter (fun i => ! cacheMem st.cache i)).map
            (fun i => i * blockSize)).zip
          ((blockIndices.filter (fun i => ! cacheMem st.cache i)).map
            (fun i => min (i * blockSize + blockSize) (getSize data st).1 -
              i * blockSize)))).map
          (fun q => pySlice data q.1 (q.1 + q.2))) =
        (blockIndices.filter (fun i => ! cacheMem st.cache i)).map
          (fun i => (i, blockContent data blockSize i)) := by
      rw [List.zip_map', List.map_map, zip_map_self]
      apply List.map_congr_left
      intro i hi
      simp only [Function.comp]
      rw [hfs, pySlice_shift]
      rfl
    rw [hzip]
    have hcache1 : (getSize data st).2.1.cache = st.cache := by rw [hst]
    have hok0 : CacheOk data blockSize ((getSize data st).2.1.cache ++
        (blockIndices.filter (fun i => ! cacheMem st.cache i)).map
          (fun i => (i, blockContent data blockSize i))) := by
      intro q hq
      rcases List.mem_append.mp hq with h | h
      · exact hv.2 q (hcache1 ▸ h)
      · obtain ⟨i, hi, hqe⟩ := List.mem_map.mp h
        rw [← hqe]
    have hmemAll : ∀ i ∈ blockIndices,
        cacheMem ((getSize data st).2.1.cache ++
          (blockIndices.filter (fun i => ! cacheMem st.cache i)).map
            (fun i => (i, blockContent data blockSize i))) i = true := by
      intro i hi
      rw [cacheMem_append, hcache1]
      rcases hc : cacheMem st.cache i with _ | _
      · have hineed : i ∈ blockIndices.filter (fun j => ! cacheMem st.cache j) :=
          List.mem_filter.mpr ⟨hi, by simp [hc]⟩
        have hr : cacheMem ((blockIndices.filter (fun j => ! cacheMem st.cache j)).map
            (fun i => (i, blockContent data blockSize i))) i = true :=
          List.any_eq_true.mpr ⟨(i, blockContent data blockSize i),
            List.mem_map.mpr ⟨i, hineed, rfl⟩, by simp⟩
        rw [hr, Bool.or_true]
      · rw [Bool.true_or]
    have hok1 : CacheOk data blockSize
        (blockIndices.foldl moveToEnd ((getSize data st).2.1.cache ++
          (blockIndices.filter (fun i => ! cacheMem st.cache i)).map
            (fun i => (i, blockContent data blockSize i)))) :=
      cacheOk_subset data blockSize _ _
        (fun q hq => mem_foldl_moveToEnd _ _ q hq) hok0
    refine ⟨?_, by rw [hst], ?_, ?_⟩
    · intro i hi
      exact cacheGet_of_ok data blockSize _ hok1 i
        (by rw [cacheMem_foldl_moveToEnd]; exact hmemAll i hi)
    · intro s hs
      simp only at hs
      rw [hst] at hs
      simpa using hs.symm
    · simp only
      exact cacheOk_subset data blockSize _ _
        (fun q hq => mem_foldl_moveToEnd _ _ q
          (mem_evictOldest _ _ q hq)) hok0

/-- Per-block slice taken by `BlockStoreReader.read`, rewritten as a
slice of the object. -/
theorem BlockStoreReader.contrib_eq (data : List Nat) (blockSize : Nat)
    (pos endPos j : Nat) (hend : endPos ≤ data.length)
    (hjlo : pos < (j + 1) * blockSize) (hjhi : j * blockSize < endPos) :
    ((blockContent data blockSize j).drop (pos - j * blockSize)).take
      (min (blockContent data blockSize j).length (endPos - j * blockSize) -
        (pos - j * blockSize)) =
    pySlice data (max pos (j * blockSize)) (min endPos ((j + 1) * blockSize)) := by
  have hmul : (j + 1) * blockSize = j * blockSize + blockSize := Nat.succ_mul j blockSize
  unfold blockContent pySlice
  rw [List.drop_take, List.drop_drop, List.take_take]
  congr 1
  · rw [List.length_take, List.length_drop]
    omega
  · congr 1
    omega

/-- Concatenating the per-block slices over the covering range of block
indices yields the requested slice of the object. -/
theorem BlockStoreReader.join_chain (data : List Nat) (blockSize : Nat)
    (hbs : 0 < blockSize) (pos endPos : Nat)
    (hpos : pos < endPos) (hend : endPos ≤ data.length) :
    ∀ (k j : Nat), pos / blockSize ≤ j →
      j + k = (endPos - 1) / blockSize + 1 →
      ((List.range' j k).map (fun i =>
        ((blockContent data blockSize i).drop (pos - i * blockSize)).take
          (min (blockContent data blockSize i).length (endPos - i * blockSize) -
            (pos - i * blockSize)))).flatten =
      pySlice data (max pos (j * blockSize)) endPos := by
  intro k
  induction k with
  | zero =>
    intro j hj hjk
    have hdm := Nat.div_add_mod (endPos - 1) blockSize
    have hml := Nat.mod_lt (endPos - 1) hbs
    have hcm : blockSize * ((endPos - 1) / blockSize) =
        (endPos - 1) / blockSize * blockSize := Nat.mul_comm _ _
    have hjbs : ((endPos - 1) / blockSize + 1) * blockSize =
        (endPos - 1) / blockSize * blockSize + blockSize := Nat.succ_mul _ _
    have hj1 : j = (endPos - 1) / blockSize + 1 := by omega
    subst hj1
    simp only [List.range', List.map_nil, List.flatten_nil]
    exact (pySlice_empty_of_le data (by omega)).symm
  | succ k ih =>
    intro j hj hjk
    have hmulj : (j + 1) * blockSize = j * blockSize + blockSize := Nat.succ_mul _ _
    have hdmp := Nat.div_add_mod pos blockSize
    have hmlp := Nat.mod_lt pos hbs
    have hcmp : blockSize * (pos / blockSize) = pos / blockSize * blockSize :=
      Nat.mul_comm _ _
    have hmono : pos / blockSize * blockSize ≤ j * blockSize :=
      Nat.mul_le_mul_right _ hj
    have hjlo : pos < (j + 1) * blockSize := by omega
    have hdm1 := Nat.div_add_mod (endPos - 1) blockSize
    have hml1 := Nat.mod_lt (endPos - 1) hbs
    have hcm1 : blockSize * ((endPos - 1) / blockSize) =
        (endPos - 1) / blockSize * blockSize := Nat.mul_comm _ _
    have hjle : j ≤ (endPos - 1) / blockSize := by omega
    have hmono2 : j * blockSize ≤ (endPos - 1) / blockSize * blockSize :=
      Nat.mul_le_mul_right _ hjle
    have hjhi : j * blockSize < endPos := by omega
    rw [List.range'_succ, List.map_cons, List.flatten_cons]
    rw [contrib_eq data blockSize pos endPos j hend hjlo hjhi]
    rw [ih (j + 1) (le_trans hj (Nat.le_succ j)) (by omega)]
    by_cases hcase : (j + 1) * blockSize ≤ endPos
    · have h1 : min endPos ((j + 1) * blockSize) = (j + 1) * blockSize := by omega
      have h2 : max pos ((j + 1) * blockSize) = (j + 1) * blockSize := by omega
      rw [h1, h2]
      exact pySlice_append data (by omega) hcase
    · push_neg at hcase
      have h1 : min endPos ((j + 1) * blockSize) = endPos := by omega
      have h2 : pySlice data (max pos ((j + 1) * blockSize)) endPos = [] :=
        pySlice_empty_of_le data (by omega)
      rw [h1, h2, List.append_nil]

theorem BlockStoreReader.valid_set_size (data : List Nat) (blockSize : Nat)
    (st : BlockStoreReader.State) (hv : Valid data blockSize st) :
    Valid data blockSize { st with size? := some data.length } :=
  ⟨fun s hs => by simpa using hs.symm, hv.2⟩

theorem BlockStoreReader.readCore_spec (data : List Nat)
    (blockSize maxCachedBlocks : Nat) (hbs : 0 < blockSize)
    (st1 : BlockStoreReader.State) (hv1 : Valid data blockSize st1)
    (m : Nat) (r : List Req) (hm0 : 0 < m)
    (hmle : st1.position + m ≤ data.length) :
    (readCore data blockSize maxCachedBlocks st1 m r).1 =
      pySlice data st1.position (st1.position + m) ∧
    (readCore data blockSize maxCachedBlocks st1 m r).2.1.position =
      st1.position + (readCore data blockSize maxCachedBlocks st1 m r).1.length ∧
    Valid data blockSize (readCore data blockSize maxCachedBlocks st1 m r).2.1 := by
  obtain ⟨hres, hposgb, hvgb⟩ := getBlocks_spec data blockSize maxCachedBlocks st1 hv1
    (List.range' (st1.position / blockSize)
      ((st1.position + m - 1) / blockSize + 1 - st1.position / blockSize))
  unfold readCore
  dsimp only
  have hmap : (List.range' (st1.position / blockSize)
        ((st1.position + m - 1) / blockSize + 1 - st1.position / blockSize)).map
      (fun i =>
        ((getBlocks data blockSize maxCachedBlocks st1
            (List.range' (st1.position / blockSize)
              ((st1.position + m - 1) / blockSize + 1 - st1.position / blockSize))).1
                i |>.drop (st1.position - i * blockSize)).take
          (min ((getBlocks data blockSize maxCachedBlocks st1
            (List.range' (st1.position / blockSize)
              ((st1.position + m - 1) / blockSize + 1 - st1.position / blockSize))).1
                i).length (st1.position + m - i * blockSize) -
            (st1.position - i * blockSize))) =
      (List.range' (st1.position / blockSize)
        ((st1.position + m - 1) / blockSize + 1 - st1.position / blockSize)).map
      (fun i =>
        ((blockContent data blockSize i).drop (st1.position - i * blockSize)).take
          (min (blockContent data blockSize i).length (st1.position + m - i * blockSize) -
            (st1.position - i * blockSize))) := by
    apply List.map_congr_left
    intro i hi
    rw [hres i hi]
  rw [hmap]
  have hdivle : st1.position / blockSize ≤ (st1.position + m - 1) / blockSize :=
    Nat.div_le_div_right (by omega)
  have hchain := join_chain data blockSize hbs st1.position (st1.position + m)
    (by omega) hmle ((st1.position + m - 1) / blockSize + 1 - st1.position / blockSize)
    (st1.position / blockSize) (le_refl _) (by omega)
  have hmax : max st1.position (st1.position / blockSize * blockSize) = st1.position :=
    Nat.max_eq_left (Nat.div_mul_le_self _ _)
  rw [hmax] at hchain
  rw [hchain]
  refine ⟨rfl, ?_, ?_⟩
  · rw [hposgb]
  · exact ⟨hvgb.1, hvgb.2⟩

theorem BlockStoreReader.read_spec (data : List Nat)
    (blockSize maxCachedBlocks : Nat) (hbs : 0 < blockSize)
    (st : BlockStoreReader.State) (hv : Valid data blockSize st) (n : Nat) :
    (read data blockSize maxCachedBlocks st (n : Int)).1 =
      pySlice data st.position (min (st.position + n) data.length) ∧
    (read data blockSize maxCachedBlocks st (n : Int)).2.1.position =
      st.position + (read data blockSize maxCachedBlocks st (n : Int)).1.length ∧
    Valid data blockSize (read data blockSize maxCachedBlocks st (n : Int)).2.1 := by
  obtain ⟨hfs, hst⟩ := getSize_spec data st hv
  have hv1 : Valid data blockSize (getSize data st).2.1 := by
    rw [hst]
    exact valid_set_size data blockSize st hv
  have hpos1 : (getSize data st).2.1.position = st.position := by rw [hst]
  unfold read
  dsimp only
  have hneg : ¬ ((n : Int) = -1) := by omega
  simp only [if_neg hneg, hfs, hpos1]
  by_cases h2 : ((n : Int) > (data.length : Int) - (st.position : Int))
  · simp only [if_pos h2]
    by_cases h3 : ((data.length : Int) - (st.position : Int) ≤ 0)
    · simp only [if_pos h3]
      refine ⟨(pySlice_empty_of_le data (by omega)).symm, by simp [hpos1], hv1⟩
    · simp only [if_neg h3]
      have ht : ((data.length : Int) - (st.position : Int)).toNat =
          data.length - st.position := by omega
      rw [ht]
      have hcore := readCore_spec data blockSize maxCachedBlocks hbs
        (getSize data st).2.1 hv1 (data.length - st.position) (getSize data st).2.2
        (by omega) (by omega)
      rw [hpos1] at hcore
      have hmin : st.position + (data.length - st.position) =
          min (st.position + n) data.length := by omega
      rw [hmin] at hcore
      exact hcore
  · simp only [if_neg h2]
    by_cases h3 : ((n : Int) ≤ 0)
    · simp only [if_pos h3]
      refine ⟨(pySlice_empty_of_le data (by omega)).symm, by simp [hpos1], hv1⟩
    · simp only [if_neg h3]
      rw [Int.toNat_natCast]
      have hcore := readCore_spec data blockSize maxCachedBlocks hbs
        (getSize data st).2.1 hv1 n (getSize data st).2.2
        (by omega) (by rw [hpos1]; omega)
      rw [hpos1] at hcore
      have hmin : st.position + n = min (st.position + n) data.length := by omega
      rw [← hmin]
      exact hcore

theorem BlockStoreReader.getSize_no_get (data : List Nat)
    (st : BlockStoreReader.State) : Req.get ∉ (getSize data st).2.2 := by
  unfold getSize
  cases st.size? <;> simp

theorem BlockStoreReader.getBlocks_no_get (data : List Nat)
    (blockSize maxCachedBlocks : Nat) (st : BlockStoreReader.State)
    (blockIndices : List Nat) :
    Req.get ∉ (getBlocks data blockSize maxCachedBlocks st blockIndices).2.2 := by
  have hg := getSize_no_get data st
  unfold getBlocks
  dsimp only
  split
  · simp
  · intro hmem
    rcases List.mem_append.mp hmem with h | h
    · exact hg h
    · simp at h

theorem BlockStoreReader.readCore_no_get (data : List Nat)
    (blockSize maxCachedBlocks : Nat) (st1 : BlockStoreReader.State)
    (m : Nat) (r : List Req) (hr : Req.get ∉ r) :
    Req.get ∉ (readCore data blockSize maxCachedBlocks st1 m r).2.2 := by
  unfold readCore
  dsimp only
  intro hmem
  rcases List.mem_append.mp hmem with h | h
  · exact hr h
  · exact getBlocks_no_get data blockSize maxCachedBlocks st1 _ h

/-- No code path of `BlockStoreReader.read` issues a plain `get`. -/
theorem BlockStoreReader.read_no_get (data : List Nat)
    (blockSize maxCachedBlocks : Nat) (st : BlockStoreReader.State) (size : Int) :
    Req.get ∉ (read data blockSize maxCachedBlocks st size).2.2 := by
  have hg := getSize_no_get data st
  unfold read
  dsimp only
  repeat' split
  all_goals
    first
      | exact hg
      | exact readCore_no_get data blockSize maxCachedBlocks _ _ _ hg

/-- C1: for every reader (block, buffered, eager), for all valid
positions `pos` and request sizes `n`, after `seek(pos)` a single
`read(n)` returns exactly `object_bytes[pos : min(pos+n, size)]`, and
the reader's position afterwards equals `pos` plus the length of the
returned bytes (not `pos + n`). -/
theorem claim_C1 (data : List Nat) (blockSize maxCachedBlocks bufferSize : Nat)
    (hbs : 0 < blockSize)
    (stB : BlockStoreReader.State) (hvB : BlockStoreReader.Valid data blockSize stB)
    (stF : BufferedStoreReader.State) (hvF : BufferedStoreReader.Valid data stF)
    (stE : EagerStoreReader.State) (hvE : EagerStoreReader.Valid data stE)
    (pos n : Nat) :
    (BlockStoreReader.seek data stB (pos : Int) 0 =
        some (pos, { stB with position := pos }, []) ∧
      (BlockStoreReader.read data blockSize maxCachedBlocks
          { stB with position := pos } (n : Int)).1 =
        pySlice data pos (min (pos + n) data.length) ∧
      (BlockStoreReader.read data blockSize maxCachedBlocks
          { stB with position := pos } (n : Int)).2.1.position =
        pos + (BlockStoreReader.read data blockSize maxCachedBlocks
          { stB with position := pos } (n : Int)).1.length) ∧
    (BufferedStoreReader.seek data stF (pos : Int) 0 =
        some (pos, { stF with position := pos }, []) ∧
      (BufferedStoreReader.read data bufferSize
          { stF with position := pos } (n : Int)).1 =
        pySlice data pos (min (pos + n) data.length) ∧
      (BufferedStoreReader.read data bufferSize
          { stF with position := pos } (n : Int)).2.1.position =
        pos + (BufferedStoreReader.read data bufferSize
          { stF with position := pos } (n : Int)).1.length) ∧
    (EagerStoreReader.seek stE (pos : Int) 0 =
        some (pos, { stE with pos := pos }) ∧
      (EagerStoreReader.read { stE with pos := pos } (n : Int)).1 =
        pySlice data pos (min (pos + n) data.length) ∧
      (EagerStoreReader.read { stE with pos := pos } (n : Int)).2.pos =
        pos + (EagerStoreReader.read { stE with pos := pos } (n : Int)).1.length) := by
  refine ⟨⟨?_, ?_⟩, ⟨?_, ?_⟩, ⟨?_, ?_⟩⟩
  · unfold BlockStoreReader.seek
    rw [if_neg (by omega : ¬ ((pos : Int) < 0)), Int.toNat_natCast]
  · have h := BlockStoreReader.read_spec data blockSize maxCachedBlocks hbs
      { stB with position := pos } ⟨hvB.1, hvB.2⟩ n
    exact ⟨h.1, h.2.1⟩
  · unfold BufferedStoreReader.seek
    rw [if_neg (by omega : ¬ ((pos : Int) < 0)), Int.toNat_natCast]
  · have h := BufferedStoreReader.buffered_read_spec data bufferSize
      { stF with position := pos } ⟨hvF.1, hvF.2⟩ n
    exact ⟨h.1, h.2.1⟩
  · unfold EagerStoreReader.seek
    rw [if_neg (by omega : ¬ ((pos : Int) < 0)), Int.toNat_natCast]
  · have h := EagerStoreReader.eager_read_spec data { stE with pos := pos } hvE n
    exact ⟨h.1, h.2⟩

/-- Witness for C1: a 10-byte object read through all three readers
from position 2 with `n = 6` yields bytes 2..7. -/
theorem claim_C1_witness :
    (BlockStoreReader.read [0, 1, 2, 3, 4, 5, 6, 7, 8, 9] 4 2
        ⟨2, none, []⟩ (6 : Int)).1 = [2, 3, 4, 5, 6, 7] ∧
    (BufferedStoreReader.read [0, 1, 2, 3, 4, 5, 6, 7, 8, 9] 3
        ⟨2, none, [], 0⟩ (6 : Int)).1 = [2, 3, 4, 5, 6, 7] ∧
    (EagerStoreReader.read ⟨[0, 1, 2, 3, 4, 5, 6, 7, 8, 9], 2⟩ (6 : Int)).1 =
      [2, 3, 4, 5, 6, 7] := by
  have h := claim_C1 [0, 1, 2, 3, 4, 5, 6, 7, 8, 9] 4 2 3 (by decide)
    ⟨0, none, []⟩ (And.intro (fun s hs => by cases hs) (fun p hp => by cases hp))
    ⟨0, none, [], 0⟩ (And.intro (fun s hs => by cases hs) (by decide))
    ⟨[0, 1, 2, 3, 4, 5, 6, 7, 8, 9], 0⟩ rfl 2 6
  refine ⟨h.1.2.1.trans (by decide), h.2.1.2.1.trans (by decide),
    h.2.2.2.1.trans (by decide)⟩

/-- C8 counterexample: the claim says every reader's seek succeeds and
clamps a negative whence-resolved target to 0, but the eager reader
(`io.BytesIO.seek`) raises `ValueError` for a negative offset with
`whence = 0` instead of clamping. -/
theorem claim_C8_counterexample :
    EagerStoreReader.seek ⟨[0, 1, 2], 1⟩ (-1 : Int) 0 = none := by
  rfl

/-- C8 as amended: for the block and buffered readers every
whence-resolved target `p` clamps to `max 0 p` (for whence 0, 1 and 2);
the eager reader clamps for whence 1 and 2 but for whence 0 succeeds
exactly when the offset is nonnegative, raising `ValueError` otherwise;
a whence outside {0, 1, 2} fails with an error in every reader. -/
theorem claim_C8 (data : List Nat) (blockSize : Nat) (offset : Int) (whence : Nat)
    (stB : BlockStoreReader.State) (hvB : BlockStoreReader.Valid data blockSize stB)
    (stF : BufferedStoreReader.State) (hvF : BufferedStoreReader.Valid data stF)
    (stE : EagerStoreReader.State) (hvE : EagerStoreReader.Valid data stE) :
    ((BlockStoreReader.seek data stB offset 0).map (fun r => (r.1, r.2.1.position)) =
        some ((max 0 offset).toNat, (max 0 offset).toNat) ∧
      (BufferedStoreReader.seek data stF offset 0).map (fun r => (r.1, r.2.1.position)) =
        some ((max 0 offset).toNat, (max 0 offset).toNat) ∧
      (0 ≤ offset → (EagerStoreReader.seek stE offset 0).map (fun r => (r.1, r.2.pos)) =
        some (offset.toNat, offset.toNat)) ∧
      (offset < 0 → EagerStoreReader.seek stE offset 0 = none)) ∧
    ((BlockStoreReader.seek data stB offset 1).map (fun r => (r.1, r.2.1.position)) =
        some ((max 0 ((stB.position : Int) + offset)).toNat,
          (max 0 ((stB.position : Int) + offset)).toNat) ∧
      (BufferedStoreReader.seek data stF offset 1).map (fun r => (r.1, r.2.1.position)) =
        some ((max 0 ((stF.position : Int) + offset)).toNat,
          (max 0 ((stF.position : Int) + offset)).toNat) ∧
      (EagerStoreReader.seek stE offset 1).map (fun r => (r.1, r.2.pos)) =
        some ((max 0 ((stE.pos : Int) + offset)).toNat,
          (max 0 ((stE.pos : Int) + offset)).toNat)) ∧
    ((BlockStoreReader.seek data stB offset 2).map (fun r => (r.1, r.2.1.position)) =
        some ((max 0 ((data.length : Int) + offset)).toNat,
          (max 0 ((data.length : Int) + offset)).toNat) ∧
      (BufferedStoreReader.seek data stF offset 2).map (fun r => (r.1, r.2.1.position)) =
        some ((max 0 ((data.length : Int) + offset)).toNat,
          (max 0 ((data.length : Int) + offset)).toNat) ∧
      (EagerStoreReader.seek stE offset 2).map (fun r => (r.1, r.2.pos)) =
        some ((max 0 ((data.length : Int) + offset)).toNat,
          (max 0 ((data.length : Int) + offset)).toNat)) ∧
    (3 ≤ whence →
      BlockStoreReader.seek data stB offset whence = none ∧
      BufferedStoreReader.seek data stF offset whence = none ∧
      EagerStoreReader.seek stE offset whence = none) := by
  obtain ⟨hfsB, -⟩ := BlockStoreReader.getSize_spec data stB hvB
  obtain ⟨hfsF, -⟩ := BufferedStoreReader.buffered_getSize_spec data stF hvF
  have e0 : (if offset < 0 then (0 : Nat) else offset.toNat) =
      (max 0 offset).toNat := by split <;> omega
  refine ⟨⟨?_, ?_, ?_, ?_⟩, ⟨?_, ?_, ?_⟩, ⟨?_, ?_, ?_⟩, ?_⟩
  · unfold BlockStoreReader.seek
    rw [e0]
    rfl
  · unfold BufferedStoreReader.seek
    rw [e0]
    rfl
  · intro h
    unfold EagerStoreReader.seek
    rw [if_neg (by omega : ¬ (offset < 0))]
    rfl
  · intro h
    unfold EagerStoreReader.seek
    rw [if_pos h]
  · unfold BlockStoreReader.seek
    dsimp only
    rw [show (if (stB.position : Int) + offset < 0 then (0 : Nat)
        else ((stB.position : Int) + offset).toNat) =
      (max 0 ((stB.position : Int) + offset)).toNat from by split <;> omega]
    rfl
  · unfold BufferedStoreReader.seek
    dsimp only
    rw [show (if (stF.position : Int) + offset < 0 then (0 : Nat)
        else ((stF.position : Int) + offset).toNat) =
      (max 0 ((stF.position : Int) + offset)).toNat from by split <;> omega]
    rfl
  · unfold EagerStoreReader.seek
    dsimp only
    rw [show (if (stE.pos : Int) + offset < 0 then (0 : Nat)
        else ((stE.pos : Int) + offset).toNat) =
      (max 0 ((stE.pos : Int) + offset)).toNat from by split <;> omega]
    rfl
  · unfold BlockStoreReader.seek
    dsimp only
    rw [hfsB]
    rw [show (if (data.length : Int) + offset < 0 then (0 : Nat)
        else ((data.length : Int) + offset).toNat) =
      (max 0 ((data.length : Int) + offset)).toNat from by split <;> omega]
    rfl
  · unfold BufferedStoreReader.seek
    dsimp only
    rw [hfsF]
    rw [show (if (data.length : Int) + offset < 0 then (0 : Nat)
        else ((data.length : Int) + offset).toNat) =
      (max 0 ((data.length : Int) + offset)).toNat from by split <;> omega]
    rfl
  · unfold EagerStoreReader.seek
    dsimp only
    rw [hvE]
    rw [show (if (data.length : Int) + offset < 0 then (0 : Nat)
        else ((data.length : Int) + offset).toNat) =
      (max 0 ((data.length : Int) + offset)).toNat from by split <;> omega]
    rfl
  · intro h3
    match whence, h3 with
    | (w + 3), _ =>
      exact ⟨rfl, rfl, rfl⟩

/-- Witness for C8: concrete seeks on a 3-byte object. -/
theorem claim_C8_witness :
    (BlockStoreReader.seek [0, 1, 2] ⟨1, none, []⟩ (-5 : Int) 1).map
        (fun r => (r.1, r.2.1.position)) = some (0, 0) ∧
    (EagerStoreReader.seek ⟨[0, 1, 2], 1⟩ (-2 : Int) 2).map
        (fun r => (r.1, r.2.pos)) = some (1, 1) ∧
    BufferedStoreReader.seek [0, 1, 2] ⟨1, none, [], 0⟩ (0 : Int) 7 = none := by
  have h := claim_C8 [0, 1, 2] 4 (-5 : Int) 7
    ⟨1, none, []⟩ (And.intro (fun s hs => by cases hs) (fun p hp => by cases hp))
    ⟨1, none, [], 0⟩ (And.intro (fun s hs => by cases hs) (by decide))
    ⟨[0, 1, 2], 1⟩ rfl
  have h2 := claim_C8 [0, 1, 2] 4 (-2 : Int) 7
    ⟨1, none, []⟩ (And.intro (fun s hs => by cases hs) (fun p hp => by cases hp))
    ⟨1, none, [], 0⟩ (And.intro (fun s hs => by cases hs) (by decide))
    ⟨[0, 1, 2], 1⟩ rfl
  exact ⟨h.2.1.1.trans (by decide), h2.2.2.1.2.2.trans (by decide),
    (h.2.2.2 (by decide)).2.1⟩

/-- C4 counterexample: the claim says `read(-1)` is served by a single
plain `get` and does not populate the block cache, but on a fresh block
reader `read(-1)` issues `head` plus one `get_ranges` over the covering
blocks and fills the cache. -/
theorem claim_C4_counterexample :
    (BlockStoreReader.read [0, 1, 2, 3] 2 64 ⟨0, none, []⟩ (-1 : Int)).2.2 =
      [Req.head, Req.getRanges [0, 2] [2, 2]] ∧
    (BlockStoreReader.read [0, 1, 2, 3] 2 64 ⟨0, none, []⟩ (-1 : Int)).2.1.cache =
      [(0, [0, 1]), (1, [2, 3])] := by
  constructor <;> rfl

/-- C4 as amended: `readall()` is served by a single plain `get` in both
the block and buffered readers, and for the block reader it leaves the
block cache untouched; `read(-1)` instead goes through the reader's
normal read path — the block reader fetches uncached covering blocks via
`get_ranges` (populating its cache) and the buffered reader serves from
its buffer or issues a single `get_range` — so neither reader's
`read(-1)` ever issues a plain `get`. -/
theorem claim_C4 :
    (∀ (data : List Nat) (st : BlockStoreReader.State),
      BlockStoreReader.readall data st =
        (data, { st with size? := some data.length, position := data.length },
          [Req.get]) ∧
      (BlockStoreReader.readall data st).2.1.cache = st.cache) ∧
    (∀ (data : List Nat) (st : BufferedStoreReader.State),
      BufferedStoreReader.readall data st =
        (data, { st with size? := some data.length, position := data.length },
          [Req.get])) ∧
    (∀ (data : List Nat) (blockSize maxCachedBlocks : Nat)
        (st : BlockStoreReader.State),
      Req.get ∉ (BlockStoreReader.read data blockSize maxCachedBlocks st
        (-1 : Int)).2.2) ∧
    (∀ (data : List Nat) (bufferSize : Nat) (st : BufferedStoreReader.State),
      Req.get ∉ (BufferedStoreReader.read data bufferSize st (-1 : Int)).2.2) := by
  refine ⟨fun data st => ⟨rfl, rfl⟩, fun data st => rfl, ?_, ?_⟩
  · intro data blockSize maxCachedBlocks st
    exact BlockStoreReader.read_no_get data blockSize maxCachedBlocks st (-1)
  · intro data bufferSize st
    exact BufferedStoreReader.buffered_read_no_get data bufferSize st (-1)

/-- C10: `BlockStoreReader.close` empties only the block cache and
leaves position, cached size and every other field unchanged, and a
`read(n)` issued after `close()` returns the same bytes as before,
refetching the needed blocks from the store. -/
theorem claim_C10 (data : List Nat) (blockSize maxCachedBlocks : Nat)
    (hbs : 0 < blockSize) (st : BlockStoreReader.State)
    (hv : BlockStoreReader.Valid data blockSize st) (n : Nat) :
    (BlockStoreReader.close st).cache = [] ∧
    (BlockStoreReader.close st).position = st.position ∧
    (BlockStoreReader.close st).size? = st.size? ∧
    (BlockStoreReader.read data blockSize maxCachedBlocks
        (BlockStoreReader.close st) (n : Int)).1 =
      (BlockStoreReader.read data blockSize maxCachedBlocks st (n : Int)).1 := by
  have hc : BlockStoreReader.Valid data blockSize (BlockStoreReader.close st) :=
    ⟨hv.1, fun p hp => by cases hp⟩
  refine ⟨rfl, rfl, rfl, ?_⟩
  rw [(BlockStoreReader.read_spec data blockSize maxCachedBlocks hbs
      (BlockStoreReader.close st) hc n).1,
    (BlockStoreReader.read_spec data blockSize maxCachedBlocks hbs st hv n).1]
  rfl

/-- Witness for C10: closing a block reader holding block 0 of a 4-byte
object does not change what `read(3)` returns. -/
theorem claim_C10_witness :
    (BlockStoreReader.read [0, 1, 2, 3] 2 64 ⟨0, some 4, []⟩ (3 : Int)).1 =
      (BlockStoreReader.read [0, 1, 2, 3] 2 64
        ⟨0, some 4, [(0, [0, 1])]⟩ (3 : Int)).1 := by
  have h := claim_C10 [0, 1, 2, 3] 2 64 (by decide)
    ⟨0, some 4, [(0, [0, 1])]⟩
    (And.intro (fun s hs => by cases hs; rfl)
      (fun p hp => by rw [List.mem_singleton] at hp; subst hp; rfl)) 3
  exact h.2.2.2

/-- Chain lemma for the splitting wrapper: parts `(i*q, min q (fs-i*q))`
for `i ∈ [j, j+k)` cover `[j*q, fs)` when the last part starts before
`fs` and `fs ≤ (j+k)*q`. -/
theorem coversFrom_chain (fileSize q : Nat) (hq : 0 < q) :
    ∀ (k j : Nat), 1 ≤ k → j * q < fileSize → (j + k - 1) * q < fileSize →
      fileSize ≤ (j + k) * q →
      coversFrom fileSize (j * q)
        ((List.range' j k).map
          (fun i => (i * q, min (q : Int) ((fileSize : Int) - (i * q : Nat))))) = true := by
  intro k
  induction k with
  | zero => omega
  | succ k ih =>
    intro j hk hj hlast hle
    rw [List.range'_succ, List.map_cons]
    cases k with
    | zero =>
      have hm1 : (j + 1) * q = j * q + q := Nat.succ_mul j q
      have hle' : fileSize ≤ j * q + q := by
        have e : j + (0 + 1) = j + 1 := by omega
        rw [e, hm1] at hle
        exact hle
      rw [List.range'_zero, List.map_nil]
      simp only [coversFrom, Bool.and_eq_true, beq_iff_eq, decide_eq_true_eq]
      refine ⟨⟨trivial, by omega⟩, by omega⟩
    | succ k0 =>
      have hm1 : (j + 1) * q = j * q + q := Nat.succ_mul j q
      have hlast' : (j + k0 + 1) * q < fileSize := by
        have e : j + (k0 + 1 + 1) - 1 = j + k0 + 1 := by omega
        rw [e] at hlast
        exact hlast
      have hmono : (j + 1) * q ≤ (j + k0 + 1) * q :=
        Nat.mul_le_mul_right q (by omega)
      have hj1 : (j + 1) * q < fileSize := by omega
      have happ := ih (j + 1) (by omega)
        hj1
        (by
          have e : j + 1 + (k0 + 1) - 1 = j + k0 + 1 := by omega
          rw [e]
          exact hlast')
        (by
          have e : j + 1 + (k0 + 1) = j + (k0 + 1 + 1) := by omega
          rw [e]
          exact hle)
      have e2 : j * q + (min (q : Int) ((fileSize : Int) - (j * q : Nat))).toNat =
          (j + 1) * q := by omega
      simp only [coversFrom, Bool.and_eq_true, beq_iff_eq, decide_eq_true_eq]
      rw [e2]
      simp only [coversFrom, Bool.and_eq_true, beq_iff_eq, decide_eq_true_eq] at happ
      exact ⟨⟨trivial, by omega⟩, ⟨rfl, happ.1.2⟩, happ.2⟩

/-- C2 counterexample: with `request_size = 1`, `max_concurrent_requests
= 4` and `file_size = 5`, the capped recomputation keeps the part count
at 4 without rechecking, so the computed parts are `[0,2,4,6]` with
lengths `[2,2,1,-1]`: not evenly sized, one length negative, and they do
not cover `[0, 5)` without gaps or overlaps. -/
theorem claim_C2_counterexample :
    SplittingReadableStore.computeRanges 1 4 5 =
      some ([0, 2, 4, 6], [2, 2, 1, -1]) ∧
    coversFrom 5 0 ([0, 2, 4, 6].zip [2, 2, 1, -1]) = false := by
  constructor
  · rfl
  · rfl

/-- C2 as amended: `get` delegates to a single plain `get` exactly when
`file_size = 0` or `ceil(file_size / request_size) ≤ 1` (checked before
capping, so with `max_concurrent_requests = 1` a large file still goes
through a one-part `get_ranges`).  Otherwise it issues exactly
`N = min(ceil(file_size / request_size), max_concurrent_requests)`
parts with starts `i*q` and lengths `min(q, file_size - i*q)`, where `q`
is `request_size` uncapped and `ceil(file_size / max_concurrent_requests)`
capped.  These parts are contiguous, non-overlapping and cover
`[0, file_size)` if and only if the last part is nonempty, i.e. when
`(N-1)*q < file_size` — always true uncapped, but violable when capped —
and then every part except the last has length exactly `q`. -/
theorem claim_C2 (requestSize maxConcurrentRequests fileSize : Nat)
    (hrs : 0 < requestSize) (hmx : 0 < maxConcurrentRequests) :
    (fileSize = 0 →
      SplittingReadableStore.getRequests requestSize maxConcurrentRequests fileSize =
        [Req.head, Req.get]) ∧
    ((fileSize + requestSize - 1) / requestSize ≤ 1 →
      SplittingReadableStore.getRequests requestSize maxConcurrentRequests fileSize =
        [Req.head, Req.get]) ∧
    (∀ N q, 1 < (fileSize + requestSize - 1) / requestSize →
      N = min ((fileSize + requestSize - 1) / requestSize) maxConcurrentRequests →
      q = (if (fileSize + requestSize - 1) / requestSize ≤ maxConcurrentRequests
          then requestSize
          else (fileSize + maxConcurrentRequests - 1) / maxConcurrentRequests) →
      SplittingReadableStore.computeRanges requestSize maxConcurrentRequests fileSize =
        some ((List.range N).map (fun i => i * q),
          (List.range N).map
            (fun i => min (q : Int) ((fileSize : Int) - (i * q : Nat)))) ∧
      ((fileSize + requestSize - 1) / requestSize ≤ maxConcurrentRequests →
        (N - 1) * q < fileSize) ∧
      ((N - 1) * q < fileSize →
        coversFrom fileSize 0
          (((List.range N).map (fun i => i * q)).zip
            ((List.range N).map
              (fun i => min (q : Int) ((fileSize : Int) - (i * q : Nat))))) = true ∧
        (∀ i, i + 1 < N →
          ((List.range N).map
            (fun i => min (q : Int) ((fileSize : Int) - (i * q : Nat))))[i]? =
              some (q : Int)) ∧
        ((List.range N).map
          (fun i => min (q : Int) ((fileSize : Int) - (i * q : Nat))))[N - 1]? =
            some ((fileSize : Int) - ((N - 1) * q : Nat)))) := by
  refine ⟨?_, ?_, ?_⟩
  · intro h0
    subst h0
    rfl
  · intro h1
    unfold SplittingReadableStore.getRequests SplittingReadableStore.computeRanges
    by_cases h0 : fileSize = 0
    · rw [if_pos h0]
    · rw [if_neg h0]
      have hge1 : 1 ≤ (fileSize + requestSize - 1) / requestSize :=
        Nat.le_div_iff_mul_le hrs |>.mpr (by omega)
      rw [if_pos (by omega : (fileSize + requestSize - 1) / requestSize = 1)]
  · intro N q hgt hN hq
    have h0 : fileSize ≠ 0 := by
      intro h
      subst h
      rw [Nat.div_eq_of_lt (by omega)] at hgt
      omega
    have hfs1 : 1 ≤ fileSize := by omega
    -- division facts for the uncapped part size
    have hubU : (fileSize + requestSize - 1) / requestSize * requestSize ≤
        fileSize + requestSize - 1 := Nat.div_mul_le_self _ _
    have hdmU := Nat.div_add_mod (fileSize + requestSize - 1) requestSize
    have hmlU := Nat.mod_lt (fileSize + requestSize - 1) hrs
    have hcmU : requestSize * ((fileSize + requestSize - 1) / requestSize) =
        (fileSize + requestSize - 1) / requestSize * requestSize := Nat.mul_comm _ _
    -- division facts for the capped part size
    have hdmC := Nat.div_add_mod (fileSize + maxConcurrentRequests - 1)
      maxConcurrentRequests
    have hmlC := Nat.mod_lt (fileSize + maxConcurrentRequests - 1) hmx
    have hcmC : maxConcurrentRequests *
        ((fileSize + maxConcurrentRequests - 1) / maxConcurrentRequests) =
        (fileSize + maxConcurrentRequests - 1) / maxConcurrentRequests *
          maxConcurrentRequests := Nat.mul_comm _ _
    have hsubU : ((fileSize + requestSize - 1) / requestSize - 1) * requestSize =
        (fileSize + requestSize - 1) / requestSize * requestSize - 1 * requestSize :=
      Nat.sub_mul _ _ _
    have hcomp : SplittingReadableStore.computeRanges requestSize
        maxConcurrentRequests fileSize =
        some ((List.range N).map (fun i => i * q),
          (List.range N).map
            (fun i => min (q : Int) ((fileSize : Int) - (i * q : Nat)))) := by
      unfold SplittingReadableStore.computeRanges
      rw [if_neg h0]
      dsimp only
      rw [if_neg (by omega : ¬ (fileSize + requestSize - 1) / requestSize = 1)]
      by_cases hcap : (fileSize + requestSize - 1) / requestSize >
          maxConcurrentRequests
      · rw [if_pos hcap, if_pos hcap]
        rw [hN, hq]
        rw [if_neg (by omega), Nat.min_eq_right (by omega)]
      · rw [if_neg hcap, if_neg hcap]
        rw [hN, hq]
        rw [if_pos (by omega), Nat.min_eq_left (by omega)]
    have hNq : fileSize ≤ N * q := by
      by_cases hcap : (fileSize + requestSize - 1) / requestSize ≤
          maxConcurrentRequests
      · have hNe : N = (fileSize + requestSize - 1) / requestSize := by
          rw [hN]
          exact Nat.min_eq_left hcap
        have hqe : q = requestSize := by rw [hq, if_pos hcap]
        subst hNe hqe
        omega
      · have hNe : N = maxConcurrentRequests := by
          rw [hN]
          exact Nat.min_eq_right (by omega)
        have hqe : q = (fileSize + maxConcurrentRequests - 1) /
            maxConcurrentRequests := by rw [hq, if_neg hcap]
        subst hNe hqe
        omega
    have hN1 : 1 ≤ N := by
      rw [hN]
      exact le_min (by omega) hmx
    refine ⟨hcomp, ?_, ?_⟩
    · intro hcap
      have hNe : N = (fileSize + requestSize - 1) / requestSize := by
        rw [hN]
        exact Nat.min_eq_left hcap
      have hqe : q = requestSize := by rw [hq, if_pos hcap]
      subst hNe hqe
      omega
    · intro hlastpos
      have hqpos : 0 < q := by
        rcases Nat.eq_zero_or_pos q with h | h
        · subst h
          simp at hNq
          omega
        · exact h
      refine ⟨?_, ?_, ?_⟩
      · rw [List.zip_map', List.range_eq_range']
        have := coversFrom_chain fileSize q hqpos N 0 (by omega)
          (by simpa using hfs1)
          (by simpa using hlastpos)
          (by simpa using hNq)
        simpa using this
      · intro i hi
        rw [List.getElem?_map, List.getElem?_range (by omega : i < N)]
        dsimp only [Option.map_some']
        congr 1
        have hmono : (i + 1) * q ≤ (N - 1) * q :=
          Nat.mul_le_mul_right q (by omega)
        have hm1 : (i + 1) * q = i * q + q := Nat.succ_mul i q
        omega
      · rw [List.getElem?_map, List.getElem?_range (by omega : N - 1 < N)]
        dsimp only [Option.map_some']
        congr 1
        have hm1 : N * q = (N - 1) * q + q := by
          have e : N = N - 1 + 1 := by omega
          calc N * q = (N - 1 + 1) * q := by rw [← e]
            _ = (N - 1) * q + q := Nat.succ_mul _ _
        omega

/-- Witness for C2: 101 bytes with request size 10 capped at 4
concurrent requests gives 4 parts of sizes 26, 26, 26, 23 covering
`[0, 101)`. -/
theorem claim_C2_witness :
    SplittingReadableStore.computeRanges 10 4 101 =
      some ([0, 26, 52, 78], [26, 26, 26, 23]) ∧
    coversFrom 101 0 ([0, 26, 52, 78].zip [26, 26, 26, 23]) = true := by
  have h := claim_C2 10 4 101 (by decide) (by decide)
  have h3 := h.2.2 4 26 (by decide) (by decide) (by decide)
  refine ⟨h3.1.trans (by decide), ?_⟩
  have hcov := (h3.2.2 (by decide)).1
  have elist : (((List.range 4).map (fun i => i * 26)).zip
      ((List.range 4).map
        (fun i => min ((26 : Nat) : Int) (((101 : Nat) : Int) - ((i * 26 : Nat) : Int))))) =
    ([0, 26, 52, 78].zip [26, 26, 26, 23]) := by decide
  rw [elist] at hcov
  exact hcov

theorem CachingReadableStore.evictWhile_spec (maxSize size : Nat)
    (c : List (Nat × Nat)) :
    currentSize (evictWhile maxSize size c) + size ≤ maxSize ∨
    evictWhile maxSize size c = [] := by
  induction c with
  | nil => exact Or.inr rfl
  | cons p rest ih =>
    unfold evictWhile
    split
    next h => exact ih
    next h => exact Or.inl (by omega)

theorem currentSize_moveToEnd (c : List (Nat × Nat)) (i : Nat) :
    CachingReadableStore.currentSize (moveToEnd c i) =
      CachingReadableStore.currentSize c := by
  induction c with
  | nil => rfl
  | cons p rest ih =>
    unfold moveToEnd
    split
    · simp [CachingReadableStore.currentSize]
      omega
    · simp only [CachingReadableStore.currentSize, List.map_cons, List.sum_cons]
      rw [show ((moveToEnd rest i).map Prod.snd).sum =
        CachingReadableStore.currentSize (moveToEnd rest i) from rfl, ih]
      rfl

theorem length_moveToEnd {β : Type} (c : List (Nat × β)) (i : Nat) :
    (moveToEnd c i).length = c.length := by
  induction c with
  | nil => rfl
  | cons p rest ih =>
    unfold moveToEnd
    split
    · simp
    · simp [ih]

theorem CachingReadableStore.ensureCached_inv (maxSize : Nat) (sizes : Nat → Nat)
    (c : List (Nat × Nat)) (path : Nat)
    (h : currentSize c ≤ maxSize ∨ c.length = 1) :
    currentSize (ensureCached maxSize sizes c path) ≤ maxSize ∨
    (ensureCached maxSize sizes c path).length = 1 := by
  unfold ensureCached
  split
  · rw [currentSize_moveToEnd, length_moveToEnd]
    exact h
  · unfold addToCache
    rcases evictWhile_spec maxSize (sizes path) c with he | he
    · left
      simp only [currentSize, List.map_append, List.sum_append]
      simp only [currentSize] at he
      simp
      omega
    · right
      rw [he]
      rfl

theorem CachingReadableStore.foldl_inv (maxSize : Nat) (sizes : Nat → Nat) :
    ∀ (ops : List Nat) (c : List (Nat × Nat)),
      (currentSize c ≤ maxSize ∨ c.length = 1) →
      (currentSize (ops.foldl (ensureCached maxSize sizes) c) ≤ maxSize ∨
        (ops.foldl (ensureCached maxSize sizes) c).length = 1) := by
  intro ops
  induction ops with
  | nil => exact fun c h => h
  | cons op rest ih =>
    intro c h
    exact ih (ensureCached maxSize sizes c op)
      (ensureCached_inv maxSize sizes c op h)

/-- C3 counterexample: with `max_size = 10`, a single `get` of a 20-byte
object leaves 20 bytes in the cache — the eviction loop stops when the
cache is empty and inserts the oversized object anyway. -/
theorem claim_C3_counterexample :
    CachingReadableStore.runOps 10 (fun x => 20) [0] = [(0, 20)] ∧
    CachingReadableStore.currentSize
      (CachingReadableStore.runOps 10 (fun x => 20) [0]) = 20 ∧
    ¬ CachingReadableStore.currentSize
      (CachingReadableStore.runOps 10 (fun x => 20) [0]) ≤ 10 := by
  refine ⟨rfl, rfl, by decide⟩

/-- C3 as amended: after every sequence of `get`/`get_range`/`get_ranges`
operations starting from an empty cache, the total cached byte size is
at most `max_size` unless the cache consists of exactly one object
(which can exceed `max_size` when that single object is larger than the
whole cache budget). -/
theorem claim_C3 (maxSize : Nat) (sizes : Nat → Nat) (ops : List Nat) :
    CachingReadableStore.currentSize
      (CachingReadableStore.runOps maxSize sizes ops) ≤ maxSize ∨
    (CachingReadableStore.runOps maxSize sizes ops).length = 1 :=
  CachingReadableStore.foldl_inv maxSize sizes ops [] (Or.inl (Nat.zero_le _))

/-- C5 counterexample: a `get_ranges` call whose delegate raises leaves
the trace unchanged — no record of the failed call is appended, contrary
to the claim that every operation records failed attempts. -/
theorem claim_C5_counterexample :
    (TracingReadableStore.getRanges [] "p" [0] none (some [5]) none).2 = [] := by
  rfl

/-- C5 as amended: `get`, `get_range` and `head` append their trace
record even when the delegate raises (via the `_record` context
manager's `finally`), but `get_ranges` writes its per-range records only
after the delegate returns, so a raising delegate leaves the trace
unchanged. -/
theorem claim_C5 (t : List RequestRecord) (path : String) (start : Int)
    (starts : List Int) (ends? lengths? : Option (List Int)) :
    (TracingReadableStore.get t path none).2 =
      t ++ [⟨path, 0, 0, 0 + 0, Method.get, none⟩] ∧
    (∀ length, (TracingReadableStore.getRange t path start none
        (some length) none).2 =
      t ++ [⟨path, start, length, start + length, Method.getRange,
        some RangeStyle.lengthStyle⟩]) ∧
    (∀ stop, (TracingReadableStore.getRange t path start (some stop)
        none none).2 =
      t ++ [⟨path, start, stop - start, start + (stop - start),
        Method.getRange, some RangeStyle.endStyle⟩]) ∧
    (TracingReadableStore.head t path none).2 =
      t ++ [⟨path, 0, 0, 0 + 0, Method.head, none⟩] ∧
    (TracingReadableStore.getRanges t path starts ends? lengths? none).2 = t := by
  refine ⟨rfl, fun length => rfl, fun stop => rfl, rfl, ?_⟩
  unfold TracingReadableStore.getRanges
  cases lengths? with
  | some lengths => rfl
  | none =>
    cases ends? with
    | some ends => rfl
    | none => rfl

/-- C9: every traced `head` call — successful or not — appends a record
with `start = 0`, `length = 0` and `end = 0`, so `head` calls never
contribute to the trace's `total_bytes` aggregate. -/
theorem claim_C9 (t : List RequestRecord) (path : String) (res : Option Nat) :
    (TracingReadableStore.head t path res).2 =
      t ++ [⟨path, 0, 0, 0 + 0, Method.head, none⟩] ∧
    (TracingReadableStore.head t path res).2.map (fun r => r.stop) =
      t.map (fun r => r.stop) ++ [0] ∧
    RequestTrace.totalBytes (TracingReadableStore.head t path res).2 =
      RequestTrace.totalBytes t := by
  refine ⟨rfl, ?_, ?_⟩
  · simp [TracingReadableStore.head, RequestTrace.add]
  · unfold TracingReadableStore.head RequestTrace.add RequestTrace.totalBytes
    simp

/-- When no depth in `[1, d]` carries a store, the deepest match is the
root's store. -/
theorem deepestMatch_all_none {T : Type} (t : PathEntry T) (q : List String) :
    ∀ d, (∀ k, 1 ≤ k → k ≤ d → storeAt (q.take k) t = none) →
      deepestMatch t q d = (storeAt [] t).map (fun s => (s, 0)) := by
  intro d
  induction d with
  | zero => intro h; rfl
  | succ d ih =>
    intro h
    unfold deepestMatch
    rw [h (d + 1) (by omega) (le_refl _)]
    exact ih (fun k hk1 hk2 => h k hk1 (by omega))

/-- Descending one found child shifts the deepest match by one. -/
theorem deepestMatch_cons {T : Type} (st : Option T)
    (ch : List (String × PathEntry T)) (seg : String) (rest : List String)
    (c : String × PathEntry T) (hf : ch.find? (fun e => e.1 == seg) = some c) :
    ∀ d, deepestMatch (PathEntry.node st ch) (seg :: rest) (d + 1) =
      (match deepestMatch c.2 rest d with
        | some r => some (r.1, r.2 + 1)
        | none => st.map (fun s => (s, 0))) := by
  have hstep : ∀ k, storeAt ((seg :: rest).take (k + 1)) (PathEntry.node st ch) =
      storeAt (rest.take k) c.2 := by
    intro k
    rw [List.take_succ_cons]
    simp only [storeAt]
    rw [hf]
  intro d
  induction d with
  | zero =>
    conv_lhs => unfold deepestMatch
    rw [hstep 0, List.take_zero]
    conv_rhs => unfold deepestMatch
    cases hs : storeAt ([] : List String) c.2 with
    | some s => rfl
    | none => rfl
  | succ d ih =>
    conv_lhs => unfold deepestMatch
    rw [hstep (d + 1)]
    conv_rhs => unfold deepestMatch
    cases hs : storeAt (rest.take (d + 1)) c.2 with
    | some s => rfl
    | none => rw [ih]

/-- The trie walk returns exactly the deepest registered prefix match.  -/
theorem lookupIn_eq_deepestMatch {T : Type} :
    ∀ (q : List String) (t : PathEntry T),
      lookupIn q t = deepestMatch t q q.length := by
  intro q
  induction q with
  | nil =>
    intro t
    cases t with
    | node st ch => rfl
  | cons seg rest ih =>
    intro t
    cases t with
    | node st ch =>
      cases hf : ch.find? (fun e => e.1 == seg) with
      | none =>
        have hnone : ∀ k, 1 ≤ k → k ≤ rest.length + 1 →
            storeAt ((seg :: rest).take k) (PathEntry.node st ch) = none := by
          intro k hk1 hk2
          match k, hk1 with
          | (k0 + 1), _ =>
            rw [List.take_succ_cons]
            unfold storeAt
            rw [hf]
        rw [show (seg :: rest).length = rest.length + 1 from rfl,
          deepestMatch_all_none _ _ _ hnone]
        unfold lookupIn
        rw [hf]
        rfl
      | some c =>
        rw [show (seg :: rest).length = rest.length + 1 from rfl,
          deepestMatch_cons st ch seg rest c hf rest.length]
        unfold lookupIn
        rw [hf]
        dsimp only
        rw [ih c.2]

/-- C6: registry lookup selects the store attached to the deepest
registered node whose path-segment sequence is a prefix of the URL's
path segments — the longest segment-wise prefix wins — and matching is
segment-bounded: a registration for `/foo` never matches `/foobar`,
while it does match `/foo/bar`. -/
theorem claim_C6 {T : Type} (t : PathEntry T) (path : String) (s : T) :
    PathEntry.lookup t path =
      deepestMatch t (pathSegments path) (pathSegments path).length ∧
    PathEntry.lookup
      (ObjectStoreRegistry.register (PathEntry.node none []) "/foo" s)
      "/foobar" = none ∧
    PathEntry.lookup
      (ObjectStoreRegistry.register (PathEntry.node none []) "/foo" s)
      "/foo/bar" = some (s, 1) := by
  refine ⟨lookupIn_eq_deepestMatch (pathSegments path) t, rfl, rfl⟩

/-- C7 counterexample: a store without `prefix`/`url` attributes
registered under `/pre` resolves `/pre/x` to the full path `pre/x`, not
to the suffix `x` after the registered prefix as the claim states. -/
theorem claim_C7_counterexample :
    ObjectStoreRegistry.resolve
      (ObjectStoreRegistry.register (PathEntry.node none [])
        "/pre" (⟨none, none⟩ : StoreInfo)) "/pre/x" =
      some (⟨none, none⟩, "pre/x") ∧ "pre/x" ≠ "x" := by
  exact ⟨rfl, by decide⟩

/-- C7 as amended: `resolve` fails with a lookup error when no store
matches; otherwise it returns the matched store together with the full
URL path stripped of leading slashes — not the suffix after the store's
registered prefix — further stripped of the store's own advertised
`prefix` (or `url` path) when present, as the source's own doctest
examples assert. -/
theorem claim_C7 (entry : PathEntry StoreInfo) (path : String) :
    (PathEntry.lookup entry path = none →
      ObjectStoreRegistry.resolve entry path = none) ∧
    (∀ store d, PathEntry.lookup entry path = some (store, d) →
      ObjectStoreRegistry.resolve entry path =
        some (store, ObjectStoreRegistry.resolvePath store path) ∧
      (store.pre? = none → store.urlPath? = none →
        ObjectStoreRegistry.resolvePath store path = lstripSlashes path)) ∧
    ObjectStoreRegistry.resolve
      (ObjectStoreRegistry.register (PathEntry.node none [])
        "/bucket" (⟨none, none⟩ : StoreInfo)) "/bucket/path/to/object" =
      some (⟨none, none⟩, "bucket/path/to/object") ∧
    ObjectStoreRegistry.resolve
      (ObjectStoreRegistry.register (PathEntry.node none [])
        "" (⟨some "my-data/prefix/", none⟩ : StoreInfo))
      "/my-data/prefix/my-file.nc" =
      some (⟨some "my-data/prefix/", none⟩, "my-file.nc") := by
  refine ⟨?_, ?_, rfl, rfl⟩
  · intro h
    unfold ObjectStoreRegistry.resolve
    rw [h]
  · intro store d h
    constructor
    · unfold ObjectStoreRegistry.resolve
      rw [h]
    · intro hpre hurl
      unfold ObjectStoreRegistry.resolvePath
      rw [hpre, hurl]

/-- Witness for C7: resolving through a registry that holds no store
for the URL fails, and a depth-1 match returns the full stripped path. -/
theorem claim_C7_witness :
    ObjectStoreRegistry.resolve (PathEntry.node none []) "/a/b" = none ∧
    ObjectStoreRegistry.resolve
      (ObjectStoreRegistry.register (PathEntry.node none [])
        "/a" (⟨none, none⟩ : StoreInfo)) "/a/b" =
      some (⟨none, none⟩, "a/b") := by
  have h1 := (claim_C7 (PathEntry.node none []) "/a/b").1 rfl
  have h2 := (claim_C7 (ObjectStoreRegistry.register (PathEntry.node none [])
    "/a" (⟨none, none⟩ : StoreInfo)) "/a/b").2.1 ⟨none, none⟩ 1 rfl
  exact ⟨h1, h2.1.trans (by rfl)⟩
